import Mathlib

/-!
Shallow embedding of the price/stock extraction pipeline of
gpu-price-tracker-au (src/scrape.py and src/discover.py).

Prices are modelled as rationals: every numeric literal handled by the
program is an exact decimal.  Text is modelled as Lean strings; the
concrete regular expressions of the source are implemented directly as
scanners over lists of characters, following Python re's leftmost-match,
greedy semantics, which for these particular all-optional-tail patterns
never needs real backtracking.  BeautifulSoup CSS selection and
json.loads are third-party capabilities: a document is modelled by the
results they expose (a selector-to-element map, the list of script
blocks with their parse outcome, and the raw html text).
-/

namespace GPUTracker

/-- ASCII lowercasing, as Python str.lower on the ASCII range. -/
def lowerChar (c : Char) : Char :=
  if 'A' ≤ c ∧ c ≤ 'Z' then Char.ofNat (c.toNat + 32) else c

/-- Python str.lower (ASCII fragment, which is all the source's vocabulary uses). -/
def lowerStr (s : String) : String := String.mk (s.toList.map lowerChar)

/-- List prefix test. -/
def isPrefixL : List Char → List Char → Bool
  | [], _ => true
  | _ :: _, [] => false
  | a :: as, b :: bs => a = b && isPrefixL as bs

/-- List infix test. -/
def containsL (hay needle : List Char) : Bool :=
  match hay with
  | [] => decide (needle = [])
  | _ :: rest => isPrefixL needle hay || containsL rest needle

/-- Python substring test: needle in haystack. -/
def strContains (haystack needle : String) : Bool :=
  containsL haystack.toList needle.toList

/-- Python regex \s (ASCII fragment). -/
def pyIsSpace (c : Char) : Bool :=
  c = ' ' ∨ c = '\t' ∨ c = '\n' ∨ c = '\r' ∨ c = '\x0b' ∨ c = '\x0c'

/-- Split a character list at a separator (Python str.split(sep)). -/
def splitChar (sep : Char) : List Char → List (List Char)
  | [] => [[]]
  | c :: cs =>
    match splitChar sep cs with
    | [] => [[c]]
    | w :: ws => if c = sep then [] :: w :: ws else (c :: w) :: ws

/-- Python str.strip() on ASCII whitespace. -/
def trimChars (cs : List Char) : List Char :=
  ((cs.dropWhile (fun c => pyIsSpace c)).reverse.dropWhile (fun c => pyIsSpace c)).reverse

/-- Join words with single spaces. -/
def joinWords : List (List Char) → List Char
  | [] => []
  | [w] => w
  | w :: ws => w ++ ' ' :: joinWords ws

/-- Greedily take at most n leading decimal digits ([0-9]\x7b1,3\x7d is n = 3). -/
def takeDigits : Nat → List Char → List Char × List Char
  | 0, cs => ([], cs)
  | _ + 1, [] => ([], [])
  | n + 1, c :: cs =>
    if c.isDigit then
      let p := takeDigits n cs
      (c :: p.1, p.2)
    else ([], c :: cs)

/-- Greedily match (?:,[0-9]\x7b3\x7d)* at the head of the input. -/
def commaGroups (cs : List Char) : List Char × List Char :=
  match cs with
  | [] => ([], [])
  | c :: rest =>
    if c = ',' then
      match rest with
      | a :: b :: d :: rest2 =>
        if a.isDigit ∧ b.isDigit ∧ d.isDigit then
          let p := commaGroups rest2
          (c :: a :: b :: d :: p.1, p.2)
        else ([], c :: rest)
      | _ => ([], c :: rest)
    else ([], c :: rest)

/-- Optionally match \.[0-9]\x7b2\x7d at the head of the input. -/
def decPart (cs : List Char) : List Char × List Char :=
  match cs with
  | [] => ([], [])
  | c :: rest =>
    if c = '.' then
      match rest with
      | a :: b :: rest2 =>
        if a.isDigit ∧ b.isDigit then ([c, a, b], rest2) else ([], c :: rest)
      | _ => ([], c :: rest)
    else ([], c :: rest)

/-- The capture group [0-9]\x7b1,3\x7d(?:,[0-9]\x7b3\x7d)*(?:\.[0-9]\x7b2\x7d)?
matched at the head of the input; also returns the rest of the input after
the match.  Fails when no digit starts here. -/
def priceGroupRest (cs : List Char) : Option (List Char × List Char) :=
  match takeDigits 3 cs with
  | ([], _) => none
  | (d :: ds, rest) =>
    let p := commaGroups rest
    let q := decPart p.2
    some ((d :: ds) ++ p.1 ++ q.1, q.2)

/-- Drop the \s* prefix. -/
def dropSpaces : List Char → List Char
  | [] => []
  | c :: cs => if pyIsSpace c then dropSpaces cs else c :: cs

/-- AUD_NEAR_RE = (?:A?\$)\s*GROUP with re.I, matched at the head of the input. -/
def audAt (cs : List Char) : Option (List Char × List Char) :=
  match cs with
  | [] => none
  | c :: cs' =>
    if c = '$' then priceGroupRest (dropSpaces cs')
    else if c = 'A' ∨ c = 'a' then
      match cs' with
      | '$' :: rest => priceGroupRest (dropSpaces rest)
      | _ => none
    else none

/-- PRICE_RE = \$?\s*GROUP matched at the head of the input.  When the head is
a dollar sign the pattern can only succeed by consuming it (re-trying with
\$? empty would put the group on the dollar sign itself and fail). -/
def priceAt (cs : List Char) : Option (List Char × List Char) :=
  match cs with
  | [] => none
  | c :: cs' =>
    if c = '$' then priceGroupRest (dropSpaces cs')
    else priceGroupRest (dropSpaces (c :: cs'))

/-- re.search: leftmost position at which the matcher succeeds; returns the
capture group. -/
def searchWith (m : List Char → Option (List Char × List Char)) :
    List Char → Option (List Char)
  | [] => none
  | c :: cs =>
    match m (c :: cs) with
    | some p => some p.1
    | none => searchWith m cs

/-- Value of a digit string as a natural number. -/
def digitsVal (ds : List Char) : Nat :=
  ds.foldl (fun a c => a * 10 + (c.toNat - '0'.toNat)) 0

/-- Decimal parse of digits optionally followed by a dot and fraction digits;
this covers exactly the strings Python float() receives from the matched
groups once commas are removed.  The rational is built with mkRat so that
concrete instances evaluate inside the kernel. -/
def parseDecimalChars (cs : List Char) : Option ℚ :=
  let intPart := cs.takeWhile (·.isDigit)
  let rest := cs.dropWhile (·.isDigit)
  if intPart = [] then none
  else
    match rest with
    | [] => some (mkRat (digitsVal intPart) 1)
    | '.' :: fs =>
      if fs ≠ [] ∧ fs.all (·.isDigit) then
        some (mkRat (digitsVal intPart * 10 ^ fs.length + digitsVal fs) (10 ^ fs.length))
      else none
    | _ => none

/-- group(1).replace(",", "") followed by float(). -/
def groupVal (g : List Char) : Option ℚ :=
  parseDecimalChars (g.filter (fun c => c ≠ ','))

/-- src/scrape.py extract_price_number: empty text is falsy and yields None;
otherwise AUD_NEAR_RE is searched first, then PRICE_RE, and group 1 with
commas removed is parsed as a float. -/
def extract_price_number (text : String) : Option ℚ :=
  if text = "" then none
  else
    match searchWith audAt text.toList with
    | some g => groupVal g
    | none =>
      match searchWith priceAt text.toList with
      | some g => groupVal g
      | none => none

/-- src/scrape.py is_plausible_gpu_price: None is rejected, otherwise the
closed interval [500, 5000]. -/
def is_plausible_gpu_price (v : Option ℚ) : Bool :=
  match v with
  | none => false
  | some v => decide (500 ≤ v ∧ v ≤ 5000)

/-- Literal match: consume the given literal characters, return the rest. -/
def dropLit : List Char → List Char → Option (List Char)
  | [], cs => some cs
  | _ :: _, [] => none
  | l :: ls, c :: cs => if c = l then dropLit ls cs else none

/-- Case-insensitive literal match (the literal is given in lower case). -/
def dropLitCI : List Char → List Char → Option (List Char)
  | [], cs => some cs
  | _ :: _, [] => none
  | l :: ls, c :: cs => if lowerChar c = l then dropLitCI ls cs else none

/-- re.search for a matcher that only returns the captured group. -/
def searchSimple (m : List Char → Option (List Char)) : List Char → Option (List Char)
  | [] => none
  | c :: cs =>
    match m (c :: cs) with
    | some g => some g
    | none => searchSimple m cs

/-! ## The JSON model (json.loads output) -/

/-- JSON values as produced by json.loads.  A number carries both its
rational value (used for Python truthiness) and the string Python str()
renders it as (fed to extract_price_number); reproducing CPython float
repr digit-for-digit is the json library's concern, so the rendering
travels with the value. -/
inductive Json where
  | null
  | bool (b : Bool)
  | num (v : ℚ) (rendered : String)
  | str (s : String)
  | arr (elems : List Json)
  | obj (fields : List (String × Json))

/-- Python truthiness of a json value. -/
def pyTruthy : Json → Bool
  | .null => false
  | .bool b => b
  | .num v _ => decide (v ≠ 0)
  | .str s => decide (s ≠ "")
  | .arr es => !es.isEmpty
  | .obj fs => !fs.isEmpty

mutual

/-- Python str() of a json value, repr() when the flag is set (containers
repr their members). -/
def pyStrRepr : Bool → Json → String
  | _, .null => "None"
  | _, .bool b => if b then "True" else "False"
  | _, .num _ r => r
  | asRepr, .str s => if asRepr then "\x27" ++ s ++ "\x27" else s
  | _, .arr es => "[" ++ pyStrList es ++ "]"
  | _, .obj fs => "\x7b" ++ pyStrFields fs ++ "\x7d"

def pyStrList : List Json → String
  | [] => ""
  | [j] => pyStrRepr true j
  | j :: js => pyStrRepr true j ++ ", " ++ pyStrList js

def pyStrFields : List (String × Json) → String
  | [] => ""
  | [(k, j)] => "\x27" ++ k ++ "\x27: " ++ pyStrRepr true j
  | (k, j) :: js => "\x27" ++ k ++ "\x27: " ++ pyStrRepr true j ++ ", " ++ pyStrFields js

end

/-- Python str(). -/
def pyStr (j : Json) : String := pyStrRepr false j

/-- Python dict lookup (keys are unique after json.loads). -/
def jlookup : List (String × Json) → String → Option Json
  | [], _ => none
  | (k, v) :: rest, key => if k = key then some v else jlookup rest key

/-- The price-bearing keys scanned by the walk of try_jsonld_price, in
source order. -/
def priceKeys : List String := ["price", "priceAmount", "lowPrice", "highPrice"]

/-- The key loop of the walk: for each price key present in the mapping,
parse str(value); return the first plausible hit, skipping keys whose
value does not parse or is implausible. -/
def keyHits (fs : List (String × Json)) : List String → Option ℚ
  | [] => none
  | k :: ks =>
    match jlookup fs k with
    | none => keyHits fs ks
    | some v =>
      match extract_price_number (pyStr v) with
      | some p => if is_plausible_gpu_price (some p) then some p else keyHits fs ks
      | none => keyHits fs ks

/-- Whether obj.get(k) is truthy. -/
def truthyGet (fs : List (String × Json)) (k : String) : Bool :=
  match jlookup fs k with
  | some v => pyTruthy v
  | none => false

mutual

/-- The recursive walk of try_jsonld_price: price keys first, then the
offers entry, then the graph entry, then aggregateOffer or (Python or,
with truthiness) aggregateRating, then every value of the mapping in
order; lists are walked element-wise. -/
def walk : Json → Option ℚ
  | .obj fs =>
    match keyHits fs priceKeys with
    | some p => some p
    | none =>
      match walkKey fs "offers" with
      | some p => some p
      | none =>
        match walkKey fs "@graph" with
        | some p => some p
        | none =>
          match
            (if truthyGet fs "aggregateOffer" then walkKey fs "aggregateOffer"
             else walkKey fs "aggregateRating") with
          | some p => some p
          | none => walkVals fs
  | .arr es => walkArr es
  | _ => none

/-- obj.get(key) followed by a truthiness test and a recursive walk. -/
def walkKey : List (String × Json) → String → Option ℚ
  | [], _ => none
  | (k, v) :: rest, key =>
    if k = key then (if pyTruthy v then walk v else none)
    else walkKey rest key

/-- The final loop over obj.values(). -/
def walkVals : List (String × Json) → Option ℚ
  | [] => none
  | (_, v) :: rest =>
    match walk v with
    | some p => some p
    | none => walkVals rest

def walkArr : List Json → Option ℚ
  | [] => none
  | v :: rest =>
    match walk v with
    | some p => some p
    | none => walkArr rest

end

/-- One script type=application/ld+json block, as the json library exposes
it to this program: the stripped text content either parses (good) or
json.loads raises on it (bad, carrying the raw text). -/
inductive ScriptBlock where
  | bad (raw : String)
  | good (j : Json)

/-- The crude fallback pattern of try_jsonld_price, matched at the head of
the input: a quoted price key, a colon with optional surrounding spaces,
an optional quote, then the group [0-9,]+\.[0-9]\x7b2\x7d. -/
def fallbackAt (cs : List Char) : Option (List Char) := do
  let r1 ← dropLit "\"price\"".toList cs
  let r2 := dropSpaces r1
  let r3 ← dropLit [':'] r2
  let r4 := dropSpaces r3
  let r5 := match r4 with
    | '"' :: r => r
    | _ => r4
  let run := r5.takeWhile (fun c => c.isDigit || c = ',')
  let rest := r5.dropWhile (fun c => c.isDigit || c = ',')
  if run = [] then none
  else
    match rest with
    | '.' :: a :: b :: _ =>
      if a.isDigit ∧ b.isDigit then some (run ++ ['.', a, b]) else none
    | _ => none

/-- src/scrape.py try_jsonld_price over the document's ld+json blocks.
Empty blocks are skipped; a block that fails to parse is scanned with the
fallback regex, and a fallback hit returns the value when plausible and
None for the whole call otherwise; a parsed block is walked, a walk hit is
returned when plausible; otherwise the next block is tried. -/
def try_jsonld_price : List ScriptBlock → Option ℚ
  | [] => none
  | .bad raw :: rest =>
    if raw = "" then try_jsonld_price rest
    else
      match searchSimple fallbackAt raw.toList with
      | some g =>
        match groupVal g with
        | some p => if is_plausible_gpu_price (some p) then some p else none
        | none => none
      | none => try_jsonld_price rest
  | .good j :: rest =>
    match walk j with
    | some p => if is_plausible_gpu_price (some p) then some p else try_jsonld_price rest
    | none => try_jsonld_price rest

/-! ## The document model and the CSS strategies -/

/-- An element as BeautifulSoup exposes it to this program: tag name,
attribute lookup, and its get_text rendering. -/
structure Element where
  name : String
  attrs : List (String × String)
  text : String

def Element.getAttr (el : Element) (k : String) : Option String :=
  (el.attrs.find? (fun kv => kv.1 = k)).map (fun kv => kv.2)

/-- A rendered document as the scraping code consumes it: the select_one
result per CSS selector, the ld+json script blocks, and the raw html. -/
structure Doc where
  select : String → Option Element
  blocks : List ScriptBlock
  html : String

/-- src/scrape.py try_css_price: walk the selector list; on a matched meta
element first try its content attribute, falling back (Python or, so empty
strings fall through) to the value attribute; a plausible meta price
returns, otherwise the element text is tried; a plausible text price
returns, otherwise the next selector. -/
def try_css_price (doc : Doc) : List String → Option ℚ
  | [] => none
  | sel :: rest =>
    match doc.select sel with
    | none => try_css_price doc rest
    | some el =>
      let metaHit : Option ℚ :=
        if el.name = "meta" then
          let content :=
            match el.getAttr "content" with
            | some s => if s = "" then el.getAttr "value" else some s
            | none => el.getAttr "value"
          let contentStr := match content with | some s => s | none => ""
          match extract_price_number contentStr with
          | some p => if is_plausible_gpu_price (some p) then some p else none
          | none => none
        else none
      match metaHit with
      | some p => some p
      | none =>
        match extract_price_number el.text with
        | some p =>
          if is_plausible_gpu_price (some p) then some p else try_css_price doc rest
        | none => try_css_price doc rest

/-! ## The regex sweep strategy -/

/-- The keyword alternation (?:price|now|today|was) of try_regex_price,
case-insensitively, at the head of the input. -/
def keywordAt (cs : List Char) : Option (List Char) :=
  match dropLitCI "price".toList cs with
  | some r => some r
  | none =>
    match dropLitCI "now".toList cs with
    | some r => some r
    | none =>
      match dropLitCI "today".toList cs with
      | some r => some r
      | none => dropLitCI "was".toList cs

/-- [^$A]\x7b0,80\x7d under re.I: greedily skip at most 80 characters that
are neither a dollar sign nor an A of either case (the following A?\$ can
only ever match at the stopping point, so no backtracking arises). -/
def takeGap : Nat → List Char → List Char
  | 0, cs => cs
  | _ + 1, [] => []
  | n + 1, c :: cs => if c = '$' ∨ c = 'A' ∨ c = 'a' then c :: cs else takeGap n cs

/-- One match of the keyword-anchored currency pattern of try_regex_price
at the head of the input: a keyword, the bounded gap, then (?:A?\$)\s* and
the price group.  Returns the captured group and the input remaining after
the whole match. -/
def nearAt (cs : List Char) : Option (List Char × List Char) := do
  let r1 ← keywordAt cs
  audAt (takeGap 80 r1)

/-- re.findall: leftmost, non-overlapping matches.  The fuel bounds the
scanning steps; callers pass the input length, which suffices because a
match always consumes at least one character. -/
def findAll (m : List Char → Option (List Char × List Char)) :
    Nat → List Char → List (List Char)
  | 0, _ => []
  | _ + 1, [] => []
  | fuel + 1, c :: cs =>
    match m (c :: cs) with
    | some (g, rest) => g :: findAll m fuel rest
    | none => findAll m fuel cs

/-- Python max over a list (None on empty, which the source never asks for). -/
def listMaxQ : List ℚ → Option ℚ
  | [] => none
  | c :: cs => some (cs.foldl (fun a b => if a ≤ b then b else a) c)

/-- The candidate values of try_regex_price: the keyword-anchored currency
matches, or, only when there is none, the bare currency matches. -/
def regexCandidates (html : String) : List ℚ :=
  let cs := html.toList
  let nearCands := (findAll nearAt cs.length cs).filterMap groupVal
  if nearCands = [] then (findAll audAt cs.length cs).filterMap groupVal
  else nearCands

/-- The regex candidates surviving the plausibility filter. -/
def regexPlausible (html : String) : List ℚ :=
  (regexCandidates html).filter (fun c => is_plausible_gpu_price (some c))

/-- src/scrape.py try_regex_price: keyword-anchored currency matches, the
bare currency matches only when no keyword-anchored match exists, then the
plausibility filter, then the largest surviving value. -/
def try_regex_price (html : String) : Option ℚ :=
  listMaxQ (regexPlausible html)

/-! ## Stock detection -/

/-- The affirmative vocabulary of detect_in_stock. -/
def stockAffirmTokens : List String :=
  ["in stock", "available", "in-store", "ready to ship", "in stock online"]

/-- The negative vocabulary of detect_in_stock. -/
def stockNegTokens : List String :=
  ["out of stock", "sold out", "unavailable", "pre-order", "backorder"]

/-- src/scrape.py detect_in_stock: walk the selector list; at the first
selector that matches an element take its lowered text; a truthy needle
makes its presence the sole verdict; otherwise the affirmative vocabulary
is checked before the negative one, and a text matching neither lets the
loop continue; None when no selector classifies. -/
def detect_in_stock (doc : Doc) : List String → Option String → Option Bool
  | [], _ => none
  | sel :: rest, needle =>
    match doc.select sel with
    | none => detect_in_stock doc rest needle
    | some el =>
      let text := lowerStr el.text
      let vocab : Option Bool :=
        if stockAffirmTokens.any (fun t => strContains text t) then some true
        else if stockNegTokens.any (fun t => strContains text t) then some false
        else none
      let needleTruthy := match needle with
        | some n => decide (n ≠ "")
        | none => false
      if needleTruthy then
        some (strContains text (lowerStr (needle.getD "")))
      else
        match vocab with
        | some b => some b
        | none => detect_in_stock doc rest needle

/-! ## scrape_store -/

/-- Store record (src/scrape.py Store). -/
structure Store where
  name : String
  url : String
  price_selector : Option String
  stock_selector : Option String
  in_stock_text : Option String

/-- split(",") followed by strip and dropping empties, as applied to the
configured selector strings. -/
def splitSelectors (s : String) : List String :=
  (((splitChar ',' s.toList).map (fun w => String.mk (trimChars w))).filter
    (fun x => x ≠ ""))

/-- src/scrape.py GENERIC_PRICE_SELECTORS. -/
def GENERIC_PRICE_SELECTORS : List String :=
  ["[itemprop=\x27price\x27]",
   "meta[itemprop=\x27price\x27]",
   "meta[property=\x27product:price:amount\x27]",
   "[data-price]",
   "[data-testid=\x27product-price\x27]",
   "[data-test=\x27Price\x27]",
   ".price .amount",
   ".price .price",
   ".product-price",
   ".price",
   ".our-price",
   ".final-price",
   ".productView-price",
   ".p-price",
   ".price__current",
   ".price-section .price",
   "span.price",
   "div.price"]

/-- src/scrape.py GENERIC_STOCK_SELECTORS. -/
def GENERIC_STOCK_SELECTORS : List String :=
  ["[data-testid=\x27stock\x27]",
   ".availability",
   ".stock-status",
   ".stock",
   ".product-availability",
   ".in-stock"]

/-- The store-provided price stage of scrape_store: entered only when the
configured selector string is truthy. -/
def storeSelectorPrice (doc : Doc) (store : Store) : Option ℚ :=
  match store.price_selector with
  | some s => if s ≠ "" then try_css_price doc (splitSelectors s) else none
  | none => none

/-- The price half of scrape_store once the page is rendered:
store-provided selectors, then the generic library, then ld+json, then the
regex sweep, each later stage entered only when every earlier stage
produced None. -/
def scrape_store_price (doc : Doc) (store : Store) : Option ℚ :=
  match storeSelectorPrice doc store with
  | some p => some p
  | none =>
    match try_css_price doc GENERIC_PRICE_SELECTORS with
    | some p => some p
    | none =>
      match try_jsonld_price doc.blocks with
      | some p => some p
      | none => try_regex_price doc.html

/-- The stock half of scrape_store: the configured selector string (or "")
split, falling back (Python or on the list) to the generic stock selectors. -/
def scrape_store_stock (doc : Doc) (store : Store) : Option Bool :=
  let sels := splitSelectors (store.stock_selector.getD "")
  detect_in_stock doc (if sels = [] then GENERIC_STOCK_SELECTORS else sels)
    store.in_stock_text

/-! ## Run orchestration (main) -/

/-- Per-store extraction record as main builds it. -/
structure StoreResult where
  store : String
  price_aud : Option ℚ
  in_stock : Option Bool
  url : String
  error : Option String
deriving DecidableEq

/-- The per-retailer loop of main: scraping one store either returns a
price/stock pair or raises with a message; a raise is caught, recorded as
a null result carrying the message, and the loop continues with the next
store. -/
def runStores (scrape : Store → Except String (Option ℚ × Option Bool)) :
    List Store → List StoreResult
  | [] => []
  | s :: rest =>
    (match scrape s with
     | .ok r =>
       { store := s.name, price_aud := r.1, in_stock := r.2, url := s.url, error := none }
     | .error e =>
       { store := s.name, price_aud := none, in_stock := none, url := s.url,
         error := some e }) :: runStores scrape rest

/-- min(valid, key=price) over the records with a non-null price, None when
none qualifies; Python min keeps the first among ties. -/
def pickLowest (results : List StoreResult) : Option StoreResult :=
  (results.filter (fun r => r.price_aud.isSome)).foldl
    (fun acc r =>
      match acc, r.price_aud with
      | none, _ => some r
      | some b, some p =>
        match b.price_aud with
        | some q => if p < q then some r else some b
        | none => some r
      | some b, none => some b)
    none

/-- Snapshot (src/scrape.py Snapshot). -/
structure Snapshot where
  ts : String
  sku : String
  lowest : Option StoreResult
  stores : List StoreResult

/-- The snapshot main persists after the store loop. -/
def mkSnapshot (ts sku : String) (results : List StoreResult) : Snapshot :=
  { ts := ts, sku := sku, lowest := pickLowest results, stores := results }

/-! ## History maintenance (main) -/

/-- One history entry: a YYYY-MM-DD date string and that day's lowest
price. -/
structure HEntry where
  date : String
  lowest_price_aud : Option ℚ
deriving DecidableEq

/-- The upsert of main: overwrite the value of the first entry carrying
today's date, or append a new entry at the end. -/
def upsertHistory : List HEntry → String → Option ℚ → List HEntry
  | [], day, p => [{ date := day, lowest_price_aud := p }]
  | h :: rest, day, p =>
    if h.date = day then { date := day, lowest_price_aud := p } :: rest
    else h :: upsertHistory rest day p

/-- Lexicographic code-point order on character lists, which is how Python
compares the YYYY-MM-DD date strings. -/
def lexLe : List Char → List Char → Bool
  | [], _ => true
  | _ :: _, [] => false
  | a :: as, b :: bs => if a = b then lexLe as bs else decide (a < b)

/-- Date order on history entries. -/
def dateLe (a b : HEntry) : Prop := lexLe a.date.toList b.date.toList = true

/-- Strictly-before on history entries: ordered and on distinct dates. -/
def dateBefore (a b : HEntry) : Prop := dateLe a b ∧ a.date ≠ b.date

instance : DecidableRel dateLe := fun a b => by unfold dateLe; infer_instance

instance (a b : HEntry) : Decidable (dateBefore a b) := by
  unfold dateBefore; infer_instance

/-- sorted(hist, key=date): a stable sort by the date string; insertion
sort is stable and agrees with it. -/
def sortHistory (hist : List HEntry) : List HEntry :=
  hist.insertionSort dateLe

/-- The Python slice [-n:]. -/
def takeLast (n : Nat) (l : List HEntry) : List HEntry :=
  l.drop (l.length - n)

/-- The history maintenance step of main: upsert today's entry, sort by
date, keep the last 365 entries. -/
def historyUpdate (hist : List HEntry) (day : String) (p : Option ℚ) : List HEntry :=
  takeLast 365 (sortHistory (upsertHistory hist day p))

/-! ## Discovery (src/discover.py) -/

/-- discover.norm on ASCII text (NFKD normalisation is the identity
there): lower-case, replace every character outside [a-z0-9+ ] by a
space, collapse whitespace runs. -/
def norm (s : String) : String :=
  let replaced := s.toList.map (fun c =>
    let c := lowerChar c
    if c.isLower ∨ c.isDigit ∨ c = '+' ∨ c = ' ' then c else ' ')
  String.mk (joinWords ((splitChar ' ' replaced).filter (fun w => w ≠ [])))

/-- discover.score_title: the number of query tokens whose lower-casing
occurs in the normalised title. -/
def score_title (title : String) (tokens : List String) : Nat :=
  (tokens.filter (fun tok => strContains (norm title) (lowerStr tok))).length

/-- discover.run href_tokenscore: tokens contained in the href lowered
with dashes, underscores and slashes replaced by spaces. -/
def href_tokenscore (href : String) (toks : List String) : Nat :=
  let h := String.mk (href.toList.map (fun c =>
    let c := lowerChar c
    if c = '-' ∨ c = '_' ∨ c = '/' then ' ' else c))
  (toks.filter (fun t => strContains h (lowerStr t))).length

/-- The product-ish path fragments of discover.run. -/
def productishKeys : List String :=
  ["/product", "/products", "/p/", "/item", "/buy", "/detail"]

/-- discover.run productish: how many of the fragments occur in the
lowered href. -/
def productish (href : String) : Nat :=
  (productishKeys.filter (fun k => strContains (lowerStr href) k)).length

/-- discover.run gpu_keywords. -/
def gpu_keywords : List String :=
  ["msi", "geforce", "rtx", "5070", "ti", "inspire", "3x", "oc"]

/-- discover.run total_score of one (text, href) link candidate. -/
def total_score (tokens : List String) (txt href : String) : Nat :=
  score_title txt tokens + href_tokenscore href tokens +
    href_tokenscore href gpu_keywords + productish href * 2

/-- The primary acceptance threshold of discover.run (best_score < 4 is
skipped). -/
def primaryThreshold : Int := 4

/-- The secondary, title re-score threshold of discover.run:
max(4, len(tokens) - 5). -/
def secondaryThreshold (tokens : List String) : Int :=
  max 4 ((tokens.length : Int) - 5)

/-- The per-retailer decision core of discover.run once link candidates
are collected: rank by combined score descending (Python sorted with
reverse=True, stable), reject when the top score is under the primary
threshold, otherwise fetch the winner's page and re-score its title (the
render is an external capability, passed as an oracle from href to title),
rejecting when the re-score is under the secondary threshold; acceptance
yields the winning href. -/
def retailerDecision (tokens : List String) (links : List (String × String))
    (pageTitle : String → String) : Option String :=
  match links.insertionSort
      (fun a b => total_score tokens a.1 a.2 ≥ total_score tokens b.1 b.2) with
  | [] => none
  | best :: _ =>
    if (total_score tokens best.1 best.2 : Int) < primaryThreshold then none
    else if (score_title (pageTitle best.2) tokens : Int) < secondaryThreshold tokens then
      none
    else some best.2

/-! ## Spec-modelled context scorer -/

/-- Modelled from the spec: src/ contains no context scorer; this is the
score adjustment of spec section 4.3, +2 per corroborating phrase found in
the candidate's neighborhood text and -6 per disqualifying phrase found
there, case-insensitively. -/
def contextAdjustment (neighborhood : String)
    (corroborating disqualifying : List String) : Int :=
  2 * ((corroborating.filter
          (fun t => strContains (lowerStr neighborhood) (lowerStr t))).length : Int) -
    6 * ((disqualifying.filter
          (fun t => strContains (lowerStr neighborhood) (lowerStr t))).length : Int)

/-- Modelled from the spec: the context score of section 4.3 is the
provenance base weight plus the adjustment. -/
def contextScore (base : Int) (neighborhood : String)
    (corroborating disqualifying : List String) : Int :=
  base + contextAdjustment neighborhood corroborating disqualifying

/-! ## Spec-side descriptions used for refinement statements -/

/-- The per-text classification step of the stock-detection claim:
affirmative vocabulary yields true, negative vocabulary yields false,
otherwise no classification. -/
def vocabClassify (text : String) : Option Bool :=
  if stockAffirmTokens.any (fun t => strContains text t) then some true
  else if stockNegTokens.any (fun t => strContains text t) then some false
  else none

/-- The texts of the locators that match an element, in locator order. -/
def matchedTexts (doc : Doc) (sels : List String) : List String :=
  sels.filterMap (fun sel => (doc.select sel).map (fun el => el.text))

/-- First classification over the matched texts (lowered as the code
lowers them); none when no text classifies. -/
def firstClassification : List String → Option Bool
  | [] => none
  | t :: ts =>
    match vocabClassify (lowerStr t) with
    | some b => some b
    | none => firstClassification ts

/-- The rendered values of the price keys present in a mapping, in key
order. -/
def keyVals (fs : List (String × Json)) : List String → List String
  | [] => []
  | k :: ks =>
    match jlookup fs k with
    | some v => pyStr v :: keyVals fs ks
    | none => keyVals fs ks

mutual

/-- Every price-key declaration in a json tree: for each mapping, the
rendered values of its present price keys in key order, then the
declarations inside its values in order; used to state the
single-declaration hypothesis of the structured-data claim. -/
def declaredVals : Json → List String
  | .obj fs => keyVals fs priceKeys ++ declaredValsFields fs
  | .arr es => declaredValsArr es
  | _ => []

def declaredValsFields : List (String × Json) → List String
  | [] => []
  | (_, v) :: rest => declaredVals v ++ declaredValsFields rest

def declaredValsArr : List Json → List String
  | [] => []
  | v :: rest => declaredVals v ++ declaredValsArr rest

end

/-- A block the ld+json loop passes over without returning: an empty or
fallback-unmatched unparsable block, or a parsed block declaring no price
key anywhere. -/
def blockSkips : ScriptBlock → Bool
  | .bad raw => decide (raw = "") || (searchSimple fallbackAt raw.toList).isNone
  | .good j => decide (declaredVals j = [])

/-- The spec's history invariant: entries on strictly increasing dates,
which is sorted ascending with at most one entry per calendar date. -/
def HistoryInv (l : List HEntry) : Prop := List.Pairwise dateBefore l

instance (l : List HEntry) : Decidable (HistoryInv l) := by
  unfold HistoryInv
  infer_instance

/-! ## Concrete documents and stores used in the theorems -/

/-- A document whose stock element reads "Out of stock online". -/
def outOfStockDoc : Doc :=
  { select := fun sel =>
      if sel = ".stock" then
        some { name := "span", attrs := [], text := "Out of stock online" }
      else none,
    blocks := [], html := "" }

/-- A document whose stock element reads "Ready to ship". -/
def readyDoc : Doc :=
  { select := fun sel =>
      if sel = ".stock" then
        some { name := "span", attrs := [], text := "Ready to ship" }
      else none,
    blocks := [], html := "" }

/-- A document whose stock element holds unrelated text. -/
def unrelatedDoc : Doc :=
  { select := fun sel =>
      if sel = ".stock" then
        some { name := "span", attrs := [], text := "Special offer ends Friday" }
      else none,
    blocks := [], html := "" }

/-- A document whose stock element reads "Collect in-store today". -/
def inStoreDoc : Doc :=
  { select := fun sel =>
      if sel = ".stock" then
        some { name := "span", attrs := [], text := "Collect in-store today" }
      else none,
    blocks := [], html := "" }

def storeAlpha : Store :=
  { name := "alpha", url := "https://a.example/p", price_selector := none,
    stock_selector := none, in_stock_text := none }

def storeBeta : Store :=
  { name := "beta", url := "https://b.example/p", price_selector := none,
    stock_selector := none, in_stock_text := none }

/-- A run in which scraping the beta store raises a timeout. -/
def demoScrape : Store → Except String (Option ℚ × Option Bool) := fun s =>
  if s.name = "beta" then Except.error "Timeout 60000ms exceeded"
  else Except.ok (some 1899, some true)

/-- A store configured with a price selector. -/
def cexStore : Store :=
  { name := "gamma", url := "https://g.example/p", price_selector := some ".price",
    stock_selector := none, in_stock_text := none }

/-- A structured-data block declaring the single price 1,899.00. -/
def jsonBlock : ScriptBlock := ScriptBlock.good (Json.obj [("price", Json.str "1,899.00")])

/-- A page whose .price element carries $600.00 while its only structured
data block declares 1,899.00. -/
def cexDocCss : Doc :=
  { select := fun sel =>
      if sel = ".price" then some { name := "span", attrs := [], text := "$600.00" }
      else none,
    blocks := [jsonBlock],
    html := "<span class=\x27price\x27>$600.00</span>" }

/-- The same page with the priced element absent. -/
def cexDocNoCss : Doc :=
  { select := fun _ => none, blocks := [jsonBlock], html := "" }

/-! ## Helper lemmas -/

lemma foldlMax_mem (c : ℚ) (cs : List ℚ) :
    cs.foldl (fun a b => if a ≤ b then b else a) c ∈ c :: cs := by
  induction cs generalizing c with
  | nil => simp
  | cons d ds ih =>
    simp only [List.foldl_cons]
    rcases List.mem_cons.mp (ih (if c ≤ d then d else c)) with h1 | h1
    · rw [h1]
      by_cases hc : c ≤ d <;> simp [hc]
    · simp [h1]

lemma foldlMax_ge (c : ℚ) (cs : List ℚ) :
    ∀ x ∈ c :: cs, x ≤ cs.foldl (fun a b => if a ≤ b then b else a) c := by
  induction cs generalizing c with
  | nil => intro x hx; rw [List.mem_singleton] at hx; simp [hx]
  | cons d ds ih =>
    intro x hx
    simp only [List.foldl_cons]
    have hc1 : c ≤ (if c ≤ d then d else c) := by
      by_cases hc : c ≤ d <;> simp [hc]
    have hd1 : d ≤ (if c ≤ d then d else c) := by
      by_cases hc : c ≤ d <;> simp [hc]
      exact le_of_not_le hc
    have htop := ih (if c ≤ d then d else c) _ (List.mem_cons_self _ _)
    rcases List.mem_cons.mp hx with rfl | hx1
    · exact le_trans hc1 htop
    rcases List.mem_cons.mp hx1 with rfl | hx2
    · exact le_trans hd1 htop
    · exact ih _ x (List.mem_cons.mpr (Or.inr hx2))

lemma listMaxQ_spec (l : List ℚ) (hl : l ≠ []) :
    ∃ m, listMaxQ l = some m ∧ m ∈ l ∧ ∀ x ∈ l, x ≤ m := by
  cases l with
  | nil => exact absurd rfl hl
  | cons c cs => exact ⟨_, rfl, foldlMax_mem c cs, foldlMax_ge c cs⟩

/-! ## Claim theorems -/

/-- C3: the plausibility filter is the closed numeric interval [500, 5000]:
a numeric value is accepted exactly when it lies between the bounds
inclusive; each bound is accepted, the value one unit below the lower
bound and the value one unit above the upper bound are rejected, and an
absent value is rejected. -/
theorem plausibility_filter_closed_interval :
    (∀ v : ℚ, is_plausible_gpu_price (some v) = true ↔ 500 ≤ v ∧ v ≤ 5000) ∧
    is_plausible_gpu_price (some 500) = true ∧
    is_plausible_gpu_price (some 499) = false ∧
    is_plausible_gpu_price (some 5000) = true ∧
    is_plausible_gpu_price (some 5001) = false ∧
    is_plausible_gpu_price none = false := by
  refine ⟨fun v => ?_, by decide, by decide, by decide, by decide, rfl⟩
  simp [is_plausible_gpu_price]

/-- C4 counterexample: with the spec's weights, a neighborhood containing
one disqualifying phrase and three corroborating phrases nets an
adjustment of exactly zero, which is not strictly negative. -/
theorem context_adjustment_three_plus_one_cex :
    contextAdjustment "in stock - add to cart - ready to ship - $12 per week"
        ["in stock", "add to cart", "ready to ship"] ["per week"] = 0 ∧
    ¬ (contextAdjustment "in stock - add to cart - ready to ship - $12 per week"
        ["in stock", "add to cart", "ready to ship"] ["per week"] < 0) := by
  constructor <;> decide

/-- C4 (amended): the context scorer adjusts by +2 per corroborating and
-6 per disqualifying phrase found in the neighborhood; with exactly one
disqualifying phrase present and at most three corroborating phrases the
net adjustment is non-positive, and it is strictly negative when at most
two corroborating phrases are present (three corroborating phrases tie the
single disqualifier at zero). -/
theorem context_adjustment_disqualifier_dominates
    (neigh : String) (corr disq : List String)
    (hd : (disq.filter (fun t => strContains (lowerStr neigh) (lowerStr t))).length = 1)
    (hc : (corr.filter (fun t => strContains (lowerStr neigh) (lowerStr t))).length ≤ 3) :
    contextAdjustment neigh corr disq ≤ 0 ∧
    ((corr.filter (fun t => strContains (lowerStr neigh) (lowerStr t))).length ≤ 2 →
      contextAdjustment neigh corr disq < 0) := by
  unfold contextAdjustment
  rw [hd]
  refine ⟨by omega, fun h2 => by omega⟩

/-- Witness for the amended context-scorer theorem at a concrete
neighborhood with one corroborating and one disqualifying phrase. -/
theorem context_adjustment_dominates_witness :
    contextAdjustment "in stock today from $12 per week" ["in stock", "add to cart"]
        ["per week"] ≤ 0 ∧
    contextAdjustment "in stock today from $12 per week" ["in stock", "add to cart"]
        ["per week"] < 0 := by
  have h := context_adjustment_disqualifier_dominates "in stock today from $12 per week"
    ["in stock", "add to cart"] ["per week"] (by decide) (by decide)
  exact ⟨h.1, h.2 (by decide)⟩

/-- C5: try_regex_price returns the largest plausible candidate of the
currency-pattern scan: when the plausibility-filtered candidate list is
nonempty the result is its maximum; a smaller plausible instalment amount
is never returned while a larger plausible price is also a candidate; and
when no plausible value is found the result is None. -/
theorem try_regex_price_largest (html : String) :
    (regexPlausible html ≠ [] →
      ∃ m, try_regex_price html = some m ∧ m ∈ regexPlausible html ∧
        ∀ x ∈ regexPlausible html, x ≤ m) ∧
    (regexPlausible html = [] → try_regex_price html = none) ∧
    (∀ full inst : ℚ, full ∈ regexPlausible html → inst ∈ regexPlausible html →
      inst < full → try_regex_price html ≠ some inst) := by
  refine ⟨fun h => listMaxQ_spec _ h, fun h => by simp [try_regex_price, h, listMaxQ], ?_⟩
  intro full inst hf hi hlt heq
  obtain ⟨m, hm, _, hge⟩ := listMaxQ_spec (regexPlausible html)
    (fun hnil => by rw [hnil] at hf; exact absurd hf (List.not_mem_nil full))
  have hmi : m = inst := by
    have : some m = some inst := by rw [← hm, ← heq]; rfl
    exact Option.some.inj this
  have := hge full hf
  rw [hmi] at this
  exact absurd (lt_of_lt_of_le hlt this) (lt_irrefl inst)

/-- Witness: in a text carrying both a plausible full price and a smaller
plausible per-week amount, the regex strategy returns the full price and
never the instalment. -/
theorem try_regex_price_largest_witness :
    try_regex_price "Price: $2,499.00 now $599.00 per week" ≠ some 599 ∧
    try_regex_price "Price: $2,499.00 now $599.00 per week" = some 2499 := by
  constructor
  · exact (try_regex_price_largest "Price: $2,499.00 now $599.00 per week").2.2
      2499 599 (by decide) (by decide) (by decide)
  · decide

/-- C9 counterexample: the secondary threshold max(4, tokens - 5) is not
lower than the primary threshold 4; at the source's own five query tokens
the two are equal. -/
theorem secondary_threshold_not_lower_cex :
    secondaryThreshold ["msi", "geforce", "rtx", "5070", "ti"] = primaryThreshold ∧
    ¬ (secondaryThreshold ["msi", "geforce", "rtx", "5070", "ti"] < primaryThreshold) := by
  constructor <;> decide

/-- C9 (amended): a retailer whose top-scoring link candidate is below the
primary threshold 4 is rejected and omitted; an accepted candidate's
destination page title is re-scored by token overlap against the secondary
threshold max(4, tokens - 5), with rejection below it; and the secondary
threshold is never lower than the primary one (it equals it for at most
nine tokens and exceeds it beyond). -/
theorem discovery_threshold_gates (tokens : List String)
    (links : List (String × String)) (pageTitle : String → String) :
    (primaryThreshold ≤ secondaryThreshold tokens) ∧
    ((∀ l ∈ links, (total_score tokens l.1 l.2 : Int) < primaryThreshold) →
      retailerDecision tokens links pageTitle = none) ∧
    (∀ href, retailerDecision tokens links pageTitle = some href →
      ∃ txt, (txt, href) ∈ links ∧
        primaryThreshold ≤ (total_score tokens txt href : Int) ∧
        secondaryThreshold tokens ≤ (score_title (pageTitle href) tokens : Int)) := by
  refine ⟨le_max_left _ _, ?_, ?_⟩
  · intro hall
    unfold retailerDecision
    cases hs : links.insertionSort
        (fun a b => total_score tokens a.1 a.2 ≥ total_score tokens b.1 b.2) with
    | nil => rfl
    | cons b t =>
      have hb : b ∈ links := by
        rw [← List.mem_insertionSort
          (fun a b => total_score tokens a.1 a.2 ≥ total_score tokens b.1 b.2), hs]
        exact List.mem_cons_self b t
      simp only [if_pos (hall b hb)]
  · intro href hacc
    unfold retailerDecision at hacc
    cases hs : links.insertionSort
        (fun a b => total_score tokens a.1 a.2 ≥ total_score tokens b.1 b.2) with
    | nil => rw [hs] at hacc; simp at hacc
    | cons b t =>
      rw [hs] at hacc
      have hacc2 : (if (total_score tokens b.1 b.2 : Int) < primaryThreshold then none
          else if (score_title (pageTitle b.2) tokens : Int) < secondaryThreshold tokens then
            none
          else some b.2) = some href := hacc
      by_cases h1 : (total_score tokens b.1 b.2 : Int) < primaryThreshold
      · rw [if_pos h1] at hacc2; simp at hacc2
      rw [if_neg h1] at hacc2
      by_cases h2 : (score_title (pageTitle b.2) tokens : Int) < secondaryThreshold tokens
      · rw [if_pos h2] at hacc2; simp at hacc2
      rw [if_neg h2] at hacc2
      have hb : b ∈ links := by
        rw [← List.mem_insertionSort
          (fun a b => total_score tokens a.1 a.2 ≥ total_score tokens b.1 b.2), hs]
        exact List.mem_cons_self b t
      have hbeq : b.2 = href := Option.some.inj hacc2
      subst hbeq
      exact ⟨b.1, by simpa using hb, le_of_not_lt h1, le_of_not_lt h2⟩

/-- Witness: a retailer whose only candidate link scores 0 is rejected
and omitted; the thresholds compare as stated at two tokens. -/
theorem discovery_threshold_gates_witness :
    retailerDecision ["rtx", "5070"] [("widget", "https://example.com/blog")]
      (fun _ => "blog") = none ∧
    primaryThreshold ≤ secondaryThreshold ["rtx", "5070"] := by
  have h := discovery_threshold_gates ["rtx", "5070"]
    [("widget", "https://example.com/blog")] (fun _ => "blog")
  exact ⟨h.2.1 (by decide), h.1⟩

/-- C6 counterexample: the text "Collect in-store today" contains none of
the claim's affirmative or negative phrases, so the claimed classification
should pass over it and end in unknown, but the detector returns true: the
code's affirmative vocabulary additionally contains "in-store". -/
theorem stock_vocab_in_store_cex :
    detect_in_stock inStoreDoc [".stock"] none = some true ∧
    (["in stock", "available", "ready to ship", "out of stock", "sold out",
        "pre-order", "backorder"].all
      (fun t => !strContains (lowerStr "Collect in-store today") t)) = true := by
  constructor <;> decide

/-- C6 (amended): without an override phrase, stock detection classifies
the first matching locator text bearing vocabulary, with the code's
affirmative list (the claim's plus "in-store" and "in stock online")
checked before the negative list (the claim's plus "unavailable"),
continuing past matched texts bearing neither phrase and returning unknown
when no locator classifies; "Out of stock online" yields false, "Ready to
ship" yields true, and unrelated text yields unknown. -/
theorem stock_detection_classification (doc : Doc) (sels : List String) :
    detect_in_stock doc sels none = firstClassification (matchedTexts doc sels) ∧
    detect_in_stock outOfStockDoc [".stock"] none = some false ∧
    detect_in_stock readyDoc [".stock"] none = some true ∧
    detect_in_stock unrelatedDoc [".stock"] none = none := by
  refine ⟨?_, by decide, by decide, by decide⟩
  induction sels with
  | nil => rfl
  | cons sel rest ih =>
    cases hsel : doc.select sel with
    | none =>
      simp only [detect_in_stock, hsel, matchedTexts, List.filterMap_cons]
      exact ih
    | some el =>
      by_cases hA : stockAffirmTokens.any (fun t => strContains (lowerStr el.text) t)
      · simp [detect_in_stock, hsel, matchedTexts, List.filterMap_cons,
          firstClassification, vocabClassify, hA]
      · by_cases hB : stockNegTokens.any (fun t => strContains (lowerStr el.text) t)
        · simp [detect_in_stock, hsel, matchedTexts, List.filterMap_cons,
            firstClassification, vocabClassify, hA, hB]
        · simp only [detect_in_stock, hsel, matchedTexts, List.filterMap_cons,
            Option.map_some, firstClassification, vocabClassify, hA, hB,
            Bool.false_eq_true, if_false]
          exact ih

lemma runStores_length (scrape : Store → Except String (Option ℚ × Option Bool))
    (stores : List Store) :
    (runStores scrape stores).length = stores.length := by
  induction stores with
  | nil => rfl
  | cons s rest ih => simp [runStores, ih]

lemma runStores_getElem? (scrape : Store → Except String (Option ℚ × Option Bool))
    (stores : List Store) (i : Nat) :
    (runStores scrape stores)[i]? = (stores[i]?).map (fun s =>
      match scrape s with
      | .ok r => ⟨s.name, r.1, r.2, s.url, none⟩
      | .error e => ⟨s.name, none, none, s.url, some e⟩) := by
  induction stores generalizing i with
  | nil => simp [runStores]
  | cons s rest ih =>
    cases i with
    | zero => simp [runStores]
    | succ n => simpa [runStores] using ih n

/-- C7: the orchestrator isolates per-retailer failures: the result list
has one record per configured store, the snapshot carries exactly these
records, a store whose scrape raises is recorded with null price, null
stock and the failure message, and every store whose scrape succeeds is
recorded normally regardless of other stores failing. -/
theorem orchestrator_isolates_failures
    (scrape : Store → Except String (Option ℚ × Option Bool))
    (stores : List Store) (ts sku : String) :
    (runStores scrape stores).length = stores.length ∧
    (mkSnapshot ts sku (runStores scrape stores)).stores = runStores scrape stores ∧
    (∀ i, ∀ h : i < stores.length, ∀ e, scrape stores[i] = .error e →
      (runStores scrape stores)[i]? =
        some ⟨stores[i].name, none, none, stores[i].url, some e⟩) ∧
    (∀ i, ∀ h : i < stores.length, ∀ r, scrape stores[i] = .ok r →
      (runStores scrape stores)[i]? =
        some ⟨stores[i].name, r.1, r.2, stores[i].url, none⟩) := by
  refine ⟨runStores_length scrape stores, rfl, ?_, ?_⟩
  · intro i h e herr
    rw [runStores_getElem?, List.getElem?_eq_getElem h]
    simp [herr]
  · intro i h r hok
    rw [runStores_getElem?, List.getElem?_eq_getElem h]
    simp [hok]

/-- Witness: with two configured stores of which beta times out, the run
records two results, beta's with null fields and the message, alpha's
with its extracted values. -/
theorem orchestrator_isolates_failures_witness :
    (runStores demoScrape [storeAlpha, storeBeta]).length = 2 ∧
    (runStores demoScrape [storeAlpha, storeBeta])[1]? =
      some ⟨"beta", none, none, "https://b.example/p", some "Timeout 60000ms exceeded"⟩ ∧
    (runStores demoScrape [storeAlpha, storeBeta])[0]? =
      some ⟨"alpha", some 1899, some true, "https://a.example/p", none⟩ := by
  have h := orchestrator_isolates_failures demoScrape [storeAlpha, storeBeta] "ts" "sku"
  refine ⟨h.1, ?_, ?_⟩
  · exact h.2.2.1 1 (by decide) "Timeout 60000ms exceeded" rfl
  · exact h.2.2.2 0 (by decide) (some 1899, some true) rfl

/-- C1 counterexample: on cexDocCss the store-selector strategy hits
$600.00 and the pipeline returns it, although the structured-data strategy
on the same document produces the differing declared price 1899 (as the
otherwise identical cexDocNoCss shows); pooled scoring never happens, the
first successful strategy wins outright. -/
theorem extraction_short_circuit_cex :
    scrape_store_price cexDocCss cexStore = some 600 ∧
    try_jsonld_price cexDocCss.blocks = some 1899 ∧
    scrape_store_price cexDocNoCss cexStore = some 1899 ∧
    (600 : ℚ) ≠ 1899 := by
  refine ⟨by decide, by decide, by decide, by decide⟩

/-- C1 (amended): price extraction does not pool candidates: scrape_store
tries the four strategies in a fixed priority order and returns the first
plausible hit.  A value from the store-selector stage is returned
regardless of what later strategies would produce, each later stage runs
only when every earlier stage returned None, and the regex sweep alone
decides the outcome at the end of the chain. -/
theorem price_extraction_priority_chain (doc : Doc) (store : Store) :
    (∀ p, storeSelectorPrice doc store = some p → scrape_store_price doc store = some p) ∧
    (storeSelectorPrice doc store = none →
      ∀ p, try_css_price doc GENERIC_PRICE_SELECTORS = some p →
        scrape_store_price doc store = some p) ∧
    (storeSelectorPrice doc store = none →
      try_css_price doc GENERIC_PRICE_SELECTORS = none →
      ∀ p, try_jsonld_price doc.blocks = some p → scrape_store_price doc store = some p) ∧
    (storeSelectorPrice doc store = none →
      try_css_price doc GENERIC_PRICE_SELECTORS = none →
      try_jsonld_price doc.blocks = none →
      scrape_store_price doc store = try_regex_price doc.html) := by
  refine ⟨?_, ?_, ?_, ?_⟩ <;> intros <;> simp_all [scrape_store_price]

/-- Witness: with no selector hits and a single structured-data block, the
chain reaches the ld+json stage and returns its declared price. -/
theorem price_extraction_priority_chain_witness :
    scrape_store_price cexDocNoCss cexStore = some 1899 :=
  (price_extraction_priority_chain cexDocNoCss cexStore).2.2.1 (by decide) (by decide)
    1899 (by decide)

lemma digit_not_space {c : Char} (h : c.isDigit = true) : pyIsSpace c = false := by
  by_contra hs
  rw [Bool.not_eq_false] at hs
  unfold pyIsSpace at hs
  rcases of_decide_eq_true hs with rfl | rfl | rfl | rfl | rfl | rfl <;>
    exact absurd h (by decide)

lemma digit_ne_comma {c : Char} (h : c.isDigit = true) : c ≠ ',' := by
  rintro rfl; exact absurd h (by decide)

lemma digit_ne_dot {c : Char} (h : c.isDigit = true) : c ≠ '.' := by
  rintro rfl; exact absurd h (by decide)

lemma dropSpaces_not_space {c : Char} (cs : List Char) (h : pyIsSpace c = false) :
    dropSpaces (c :: cs) = c :: cs := by
  simp [dropSpaces, h]

lemma audAt_none_of_head {c : Char} (cs : List Char)
    (h1 : c ≠ '$') (h2 : c ≠ 'A') (h3 : c ≠ 'a') : audAt (c :: cs) = none := by
  simp [audAt, h1, h2, h3]

lemma searchWith_cons_none (m : List Char → Option (List Char × List Char)) (c : Char)
    (cs : List Char) (h : m (c :: cs) = none) :
    searchWith m (c :: cs) = searchWith m cs := by
  simp only [searchWith, h]

lemma searchWith_cons_some (m : List Char → Option (List Char × List Char)) (c : Char)
    (cs g r : List Char) (h : m (c :: cs) = some (g, r)) :
    searchWith m (c :: cs) = some g := by
  simp only [searchWith, h]

lemma searchWith_aud_skip (pre rest : List Char)
    (hpre : ∀ c ∈ pre, c ≠ '$' ∧ c ≠ 'A' ∧ c ≠ 'a') :
    searchWith audAt (pre ++ rest) = searchWith audAt rest := by
  induction pre with
  | nil => rfl
  | cons c cs ih =>
    obtain ⟨h1, h2, h3⟩ := hpre c (List.mem_cons_self c cs)
    rw [List.cons_append,
      searchWith_cons_none audAt c (cs ++ rest) (audAt_none_of_head (cs ++ rest) h1 h2 h3)]
    exact ih (fun d hd => hpre d (List.mem_cons_of_mem c hd))

lemma parseDecimalChars_digits (ds : List Char)
    (h : ∀ c ∈ ds, c.isDigit = true) (hne : ds ≠ []) :
    parseDecimalChars ds = some (mkRat (digitsVal ds) 1) := by
  unfold parseDecimalChars
  rw [List.takeWhile_eq_self_iff.mpr h, List.dropWhile_eq_nil_iff.mpr h]
  simp [hne]

lemma extract_price_number_eq_aud (text : String) (g : List Char)
    (hne : ¬ (text = "")) (h : searchWith audAt text.toList = some g) :
    extract_price_number text = groupVal g := by
  unfold extract_price_number
  rw [if_neg hne, h]

/-- C10 (amended): when the first currency-tagged number of the text has
four or more integer digits and no thousands separator, the extractor
captures only the first three digits ([0-9]\x7b1,3\x7d cannot grow
further), and the truncated value is rejected by the plausibility filter
whenever it falls below 500, which covers every in-range price below
exactly 5000. -/
theorem price_extractor_truncates_four_digits (pre ds post : List Char)
    (hpre : ∀ c ∈ pre, c ≠ '$' ∧ c ≠ 'A' ∧ c ≠ 'a')
    (hds : ∀ c ∈ ds, c.isDigit = true) (h4 : 4 ≤ ds.length) :
    extract_price_number (String.mk (pre ++ '$' :: (ds ++ post))) =
      some (mkRat (digitsVal (ds.take 3)) 1) ∧
    (digitsVal (ds.take 3) < 500 →
      is_plausible_gpu_price
        (extract_price_number (String.mk (pre ++ '$' :: (ds ++ post)))) = false) := by
  cases ds with
  | nil => simp at h4
  | cons a t1 =>
  cases t1 with
  | nil => simp at h4
  | cons b t2 =>
  cases t2 with
  | nil => simp at h4
  | cons c3 t3 =>
  cases t3 with
  | nil => simp at h4
  | cons d t4 =>
  have ha := hds a (by simp)
  have hb := hds b (by simp)
  have hc := hds c3 (by simp)
  have hd := hds d (by simp)
  have hdig3 : ∀ c ∈ [a, b, c3], c.isDigit = true := by
    intro c hc2
    simp only [List.mem_cons, List.not_mem_nil, or_false] at hc2
    rcases hc2 with rfl | rfl | rfl
    exacts [ha, hb, hc]
  have htd : takeDigits 3 (a :: b :: c3 :: d :: (t4 ++ post)) =
      ([a, b, c3], d :: (t4 ++ post)) := by
    simp [takeDigits, ha, hb, hc]
  have hcg : commaGroups (d :: (t4 ++ post)) = ([], d :: (t4 ++ post)) := by
    rw [commaGroups.eq_def]
    exact if_neg (digit_ne_comma hd)
  have hdp : decPart (d :: (t4 ++ post)) = ([], d :: (t4 ++ post)) := by
    rw [decPart.eq_def]
    exact if_neg (digit_ne_dot hd)
  have hpg : priceGroupRest (a :: b :: c3 :: d :: (t4 ++ post)) =
      some ([a, b, c3], d :: (t4 ++ post)) := by
    simp [priceGroupRest, htd, hcg, hdp]
  have haud : audAt ('$' :: (a :: b :: c3 :: d :: (t4 ++ post))) =
      some ([a, b, c3], d :: (t4 ++ post)) := by
    simp only [audAt]
    rw [if_pos trivial, dropSpaces_not_space _ (digit_not_space ha), hpg]
  have hsearch : searchWith audAt ('$' :: (a :: b :: c3 :: d :: (t4 ++ post))) =
      some [a, b, c3] :=
    searchWith_cons_some audAt '$' _ [a, b, c3] (d :: (t4 ++ post)) haud
  have htext : (String.mk (pre ++ '$' :: ((a :: b :: c3 :: d :: t4) ++ post))).toList =
      pre ++ '$' :: (a :: b :: c3 :: d :: (t4 ++ post)) := by simp
  have hfull : searchWith audAt
      (String.mk (pre ++ '$' :: ((a :: b :: c3 :: d :: t4) ++ post))).toList =
      some [a, b, c3] := by
    rw [htext, searchWith_aud_skip pre _ hpre]
    exact hsearch
  have hne : ¬ (String.mk (pre ++ '$' :: ((a :: b :: c3 :: d :: t4) ++ post)) = "") := by
    simp [String.ext_iff]
  have hgv : groupVal [a, b, c3] = some (mkRat (digitsVal [a, b, c3]) 1) := by
    unfold groupVal
    rw [List.filter_eq_self.mpr
      (fun c hc2 => decide_eq_true (digit_ne_comma (hdig3 c hc2)))]
    exact parseDecimalChars_digits [a, b, c3] hdig3 (by simp)
  have hmain : extract_price_number
      (String.mk (pre ++ '$' :: ((a :: b :: c3 :: d :: t4) ++ post))) =
      some (mkRat (digitsVal [a, b, c3]) 1) := by
    rw [extract_price_number_eq_aud _ [a, b, c3] hne hfull]
    exact hgv
  constructor
  · exact hmain
  · intro hlt
    have hlt3 : digitsVal [a, b, c3] < 500 := hlt
    rw [show extract_price_number
        (String.mk (pre ++ '$' :: ((a :: b :: c3 :: d :: t4) ++ post))) =
        some (((digitsVal [a, b, c3] : Int) : ℚ)) from by rw [hmain, Rat.mkRat_one]]
    unfold is_plausible_gpu_price
    rw [decide_eq_false_iff_not]
    intro hcon
    have h1 : (500 : ℚ) ≤ ((digitsVal [a, b, c3] : Int) : ℚ) := hcon.1
    have h2 : (500 : Int) ≤ (digitsVal [a, b, c3] : Int) := by exact_mod_cast h1
    omega

/-- Witness: the four-digit price $1899.00 is read back as 189.0, which
the plausibility filter rejects. -/
theorem price_extractor_truncates_witness :
    extract_price_number (String.mk ([] ++ '$' :: (['1', '8', '9', '9'] ++ ['.', '0', '0']))) =
      some (mkRat (digitsVal ['1', '8', '9']) 1) ∧
    is_plausible_gpu_price
      (extract_price_number
        (String.mk ([] ++ '$' :: (['1', '8', '9', '9'] ++ ['.', '0', '0'])))) = false := by
  have h := price_extractor_truncates_four_digits [] ['1', '8', '9', '9'] ['.', '0', '0']
    (by decide) (by decide) (by decide)
  exact ⟨h.1, h.2 (by decide)⟩

/-- C10 counterexample to the rejection clause: the in-range price
$5000.00 is truncated to 500.0, which the plausibility filter accepts
rather than rejects. -/
theorem truncated_five_thousand_passes_cex :
    extract_price_number "$5000.00" = some 500 ∧
    is_plausible_gpu_price (extract_price_number "$5000.00") = true := by
  constructor <;> decide

lemma append_eq_single {α : Type} {a b : List α} {x : α} (h : a ++ b = [x]) :
    (a = [x] ∧ b = []) ∨ (a = [] ∧ b = [x]) := by
  cases a with
  | nil => exact Or.inr ⟨rfl, h⟩
  | cons y ys =>
    simp only [List.cons_append, List.cons.injEq] at h
    obtain ⟨rfl, h2⟩ := h
    obtain ⟨h3, h4⟩ := List.append_eq_nil.mp h2
    exact Or.inl ⟨by rw [h3], h4⟩

lemma keyHits_of_keyVals_nil (fs : List (String × Json)) :
    ∀ ks, keyVals fs ks = [] → keyHits fs ks = none := by
  intro ks
  induction ks with
  | nil => intro _; rfl
  | cons k ks ih =>
    intro h
    cases hk : jlookup fs k with
    | none =>
      simp only [keyVals, hk] at h
      simp only [keyHits, hk]
      exact ih h
    | some v =>
      simp only [keyVals, hk] at h
      exact absurd h (List.cons_ne_nil _ _)

lemma keyHits_of_keyVals_single (fs : List (String × Json)) (s : String) (p : ℚ)
    (hparse : extract_price_number s = some p)
    (hpl : is_plausible_gpu_price (some p) = true) :
    ∀ ks, keyVals fs ks = [s] → keyHits fs ks = some p := by
  intro ks
  induction ks with
  | nil => intro h; simp [keyVals] at h
  | cons k ks ih =>
    intro h
    cases hk : jlookup fs k with
    | none =>
      simp only [keyVals, hk] at h
      simp only [keyHits, hk]
      exact ih h
    | some v =>
      simp only [keyVals, hk, List.cons.injEq] at h
      obtain ⟨rfl, h2⟩ := h
      simp only [keyHits, hk, hparse, hpl, if_true]

mutual

theorem walk_dnil : ∀ j : Json, declaredVals j = [] → walk j = none
  | .null, _ => rfl
  | .bool _, _ => rfl
  | .num _ _, _ => rfl
  | .str _, _ => rfl
  | .arr es, h => by
    simp only [declaredVals] at h
    simpa only [walk] using walkArr_dnil es h
  | .obj fs, h => by
    simp only [declaredVals] at h
    obtain ⟨h1, h2⟩ := List.append_eq_nil.mp h
    simp only [walk, keyHits_of_keyVals_nil fs priceKeys h1,
      walkKey_dnil fs "offers" h2, walkKey_dnil fs "@graph" h2,
      walkKey_dnil fs "aggregateOffer" h2, walkKey_dnil fs "aggregateRating" h2,
      ite_self, walkVals_dnil fs h2]

theorem walkKey_dnil : ∀ (fs : List (String × Json)) (k : String),
    declaredValsFields fs = [] → walkKey fs k = none
  | [], _, _ => rfl
  | (k', v) :: rest, k, h => by
    simp only [declaredValsFields] at h
    obtain ⟨h1, h2⟩ := List.append_eq_nil.mp h
    by_cases hk : k' = k
    · simp only [walkKey, if_pos hk, walk_dnil v h1, ite_self]
    · simp only [walkKey, if_neg hk]
      exact walkKey_dnil rest k h2

theorem walkVals_dnil : ∀ fs : List (String × Json),
    declaredValsFields fs = [] → walkVals fs = none
  | [], _ => rfl
  | (k', v) :: rest, h => by
    simp only [declaredValsFields] at h
    obtain ⟨h1, h2⟩ := List.append_eq_nil.mp h
    simp only [walkVals, walk_dnil v h1]
    exact walkVals_dnil rest h2

theorem walkArr_dnil : ∀ es : List Json, declaredValsArr es = [] → walkArr es = none
  | [], _ => rfl
  | v :: rest, h => by
    simp only [declaredValsArr] at h
    obtain ⟨h1, h2⟩ := List.append_eq_nil.mp h
    simp only [walkArr, walk_dnil v h1]
    exact walkArr_dnil rest h2

end

mutual

theorem walk_done : ∀ (j : Json) (s : String) (p : ℚ),
    declaredVals j = [s] → extract_price_number s = some p →
    is_plausible_gpu_price (some p) = true → walk j = some p
  | .null, _, _, h, _, _ => by simp [declaredVals] at h
  | .bool _, _, _, h, _, _ => by simp [declaredVals] at h
  | .num _ _, _, _, h, _, _ => by simp [declaredVals] at h
  | .str _, _, _, h, _, _ => by simp [declaredVals] at h
  | .arr es, s, p, h, hp, hpl => by
    simp only [declaredVals] at h
    simpa only [walk] using walkArr_done es s p h hp hpl
  | .obj fs, s, p, h, hp, hpl => by
    simp only [declaredVals] at h
    rcases append_eq_single h with ⟨h1, h2⟩ | ⟨h1, h2⟩
    · simp only [walk, keyHits_of_keyVals_single fs s p hp hpl priceKeys h1]
    · have hks := keyHits_of_keyVals_nil fs priceKeys h1
      have w1 := walkKey_dopt fs "offers" s p h2 hp hpl
      have w2 := walkKey_dopt fs "@graph" s p h2 hp hpl
      have w3 := walkKey_dopt fs "aggregateOffer" s p h2 hp hpl
      have w4 := walkKey_dopt fs "aggregateRating" s p h2 hp hpl
      have w5 := walkVals_done fs s p h2 hp hpl
      have hagg : (if truthyGet fs "aggregateOffer" then walkKey fs "aggregateOffer"
          else walkKey fs "aggregateRating") = none ∨
          (if truthyGet fs "aggregateOffer" then walkKey fs "aggregateOffer"
          else walkKey fs "aggregateRating") = some p := by
        by_cases ht : truthyGet fs "aggregateOffer"
        · simpa only [if_pos ht] using w3
        · simpa only [if_neg ht] using w4
      simp only [walk, hks]
      rcases w1 with w1 | w1 <;> simp only [w1]
      rcases w2 with w2 | w2 <;> simp only [w2]
      rcases hagg with hagg | hagg <;> simp only [hagg]
      exact w5

theorem walkKey_dopt : ∀ (fs : List (String × Json)) (k s : String) (p : ℚ),
    declaredValsFields fs = [s] → extract_price_number s = some p →
    is_plausible_gpu_price (some p) = true →
    walkKey fs k = none ∨ walkKey fs k = some p
  | [], _, _, _, h, _, _ => by simp [declaredValsFields] at h
  | (k', v) :: rest, k, s, p, h, hp, hpl => by
    simp only [declaredValsFields] at h
    rcases append_eq_single h with ⟨h1, h2⟩ | ⟨h1, h2⟩
    · by_cases hk : k' = k
      · by_cases ht : pyTruthy v
        · right
          simp only [walkKey, if_pos hk, if_pos ht]
          exact walk_done v s p h1 hp hpl
        · left
          simp only [walkKey, if_pos hk, if_neg ht]
      · simp only [walkKey, if_neg hk]
        exact Or.inl (walkKey_dnil rest k h2)
    · by_cases hk : k' = k
      · by_cases ht : pyTruthy v
        · left
          simp only [walkKey, if_pos hk, if_pos ht]
          exact walk_dnil v h1
        · left
          simp only [walkKey, if_pos hk, if_neg ht]
      · simp only [walkKey, if_neg hk]
        exact walkKey_dopt rest k s p h2 hp hpl

theorem walkVals_done : ∀ (fs : List (String × Json)) (s : String) (p : ℚ),
    declaredValsFields fs = [s] → extract_price_number s = some p →
    is_plausible_gpu_price (some p) = true → walkVals fs = some p
  | [], _, _, h, _, _ => by simp [declaredValsFields] at h
  | (k', v) :: rest, s, p, h, hp, hpl => by
    simp only [declaredValsFields] at h
    rcases append_eq_single h with ⟨h1, h2⟩ | ⟨h1, h2⟩
    · simp only [walkVals, walk_done v s p h1 hp hpl]
    · simp only [walkVals, walk_dnil v h1]
      exact walkVals_done rest s p h2 hp hpl

theorem walkArr_done : ∀ (es : List Json) (s : String) (p : ℚ),
    declaredValsArr es = [s] → extract_price_number s = some p →
    is_plausible_gpu_price (some p) = true → walkArr es = some p
  | [], _, _, h, _, _ => by simp [declaredValsArr] at h
  | v :: rest, s, p, h, hp, hpl => by
    simp only [declaredValsArr] at h
    rcases append_eq_single h with ⟨h1, h2⟩ | ⟨h1, h2⟩
    · simp only [walkArr, walk_done v s p h1 hp hpl]
    · simp only [walkArr, walk_dnil v h1]
      exact walkArr_done rest s p h2 hp hpl

end

lemma try_jsonld_skips (b : ScriptBlock) (rest : List ScriptBlock)
    (hb : blockSkips b = true) :
    try_jsonld_price (b :: rest) = try_jsonld_price rest := by
  cases b with
  | bad raw =>
    simp only [blockSkips, Bool.or_eq_true, decide_eq_true_eq,
      Option.isNone_iff_eq_none] at hb
    by_cases hraw : raw = ""
    · simp [try_jsonld_price, hraw]
    · rcases hb with hb | hb
      · exact absurd hb hraw
      · simp [try_jsonld_price, hraw, hb,
          show searchSimple fallbackAt raw.data = none from hb]
  | good j =>
    simp only [blockSkips, decide_eq_true_eq] at hb
    simp [try_jsonld_price, walk_dnil j hb]

lemma try_jsonld_single (pre post : List ScriptBlock) (j : Json) (s : String) (p : ℚ)
    (hpre : ∀ b ∈ pre, blockSkips b = true)
    (hdecl : declaredVals j = [s])
    (hparse : extract_price_number s = some p)
    (hpl : is_plausible_gpu_price (some p) = true) :
    try_jsonld_price (pre ++ ScriptBlock.good j :: post) = some p := by
  induction pre with
  | nil =>
    simp only [List.nil_append]
    simp [try_jsonld_price, walk_done j s p hdecl hparse hpl, hpl]
  | cons b bs ih =>
    rw [List.cons_append, try_jsonld_skips b _ (hpre b (List.mem_cons_self b bs))]
    exact ih (fun x hx => hpre x (List.mem_cons_of_mem b hx))

/-- C2 counterexample: cexDocCss carries exactly one structured-data block
and it declares the in-range price 1899, yet the pipeline selects 600,
found by a CSS stage that runs earlier in the chain. -/
theorem structured_data_overridden_cex :
    cexDocCss.blocks = [ScriptBlock.good (Json.obj [("price", Json.str "1,899.00")])] ∧
    try_jsonld_price cexDocCss.blocks = some 1899 ∧
    scrape_store_price cexDocCss cexStore = some 600 ∧
    (600 : ℚ) ≠ 1899 := by
  refine ⟨rfl, by decide, by decide, by decide⟩

/-- C2 (amended): when neither the store-selector stage nor the generic
CSS stage yields a plausible price, every structured-data block before the
declaring one is passed over, and the declaring block's json tree declares
exactly one price value, whose rendered text re-parses to a plausible
value p, the pipeline selects exactly p. -/
theorem structured_data_unique_price_selected (doc : Doc) (store : Store)
    (pre post : List ScriptBlock) (j : Json) (s : String) (p : ℚ)
    (hblocks : doc.blocks = pre ++ ScriptBlock.good j :: post)
    (hpre : ∀ b ∈ pre, blockSkips b = true)
    (hdecl : declaredVals j = [s])
    (hparse : extract_price_number s = some p)
    (hpl : is_plausible_gpu_price (some p) = true)
    (hcss1 : storeSelectorPrice doc store = none)
    (hcss2 : try_css_price doc GENERIC_PRICE_SELECTORS = none) :
    scrape_store_price doc store = some p := by
  simp only [scrape_store_price, hcss1, hcss2, hblocks,
    try_jsonld_single pre post j s p hpre hdecl hparse hpl]

/-- Witness: on a page with no selector hits and the single declared
structured-data price 1,899.00, the pipeline selects 1899. -/
theorem structured_data_unique_price_witness :
    scrape_store_price cexDocNoCss cexStore = some 1899 ∧
    declaredVals (Json.obj [("price", Json.str "1,899.00")]) = ["1,899.00"] := by
  constructor
  · exact structured_data_unique_price_selected cexDocNoCss cexStore [] []
      (Json.obj [("price", Json.str "1,899.00")]) "1,899.00" 1899
      rfl (fun b hb => absurd hb (List.not_mem_nil b)) (by decide) (by decide)
      (by decide) (by decide) (by decide)
  · decide

lemma lexLe_refl : ∀ a : List Char, lexLe a a = true
  | [] => rfl
  | c :: cs => by simp [lexLe, lexLe_refl cs]

lemma lexLe_total : ∀ a b : List Char, lexLe a b = true ∨ lexLe b a = true
  | [], _ => Or.inl rfl
  | _ :: _, [] => Or.inr rfl
  | x :: xs, y :: ys => by
    by_cases hxy : x = y
    · subst hxy
      rcases lexLe_total xs ys with h | h
      · exact Or.inl (by simp [lexLe, h])
      · exact Or.inr (by simp [lexLe, h])
    · rcases lt_or_gt_of_ne hxy with h | h
      · exact Or.inl (by simp [lexLe, hxy, h])
      · exact Or.inr (by simp [lexLe, Ne.symm hxy, h])

lemma lexLe_trans : ∀ a b c : List Char,
    lexLe a b = true → lexLe b c = true → lexLe a c = true
  | [], _, _, _, _ => rfl
  | _ :: _, [], _, hab, _ => by simp [lexLe] at hab
  | _ :: _, _ :: _, [], _, hbc => by simp [lexLe] at hbc
  | x :: xs, y :: ys, z :: zs, hab, hbc => by
    by_cases hxy : x = y
    · subst hxy
      simp only [lexLe] at hab
      rw [if_pos trivial] at hab
      by_cases hxz : x = z
      · subst hxz
        simp only [lexLe] at hbc ⊢
        rw [if_pos trivial] at hbc ⊢
        exact lexLe_trans xs ys zs hab hbc
      · simp only [lexLe] at hbc ⊢
        rw [if_neg hxz] at hbc ⊢
        exact hbc
    · simp only [lexLe] at hab
      rw [if_neg hxy] at hab
      have hxy' : x < y := of_decide_eq_true hab
      by_cases hyz : y = z
      · subst hyz
        simp only [lexLe]
        rw [if_neg hxy]
        exact hab
      · simp only [lexLe] at hbc
        rw [if_neg hyz] at hbc
        have hyz' : y < z := of_decide_eq_true hbc
        have hxz' : x < z := lt_trans hxy' hyz'
        simp only [lexLe]
        rw [if_neg (ne_of_lt hxz')]
        exact decide_eq_true hxz'

lemma lexLe_antisymm : ∀ a b : List Char,
    lexLe a b = true → lexLe b a = true → a = b
  | [], [], _, _ => rfl
  | [], _ :: _, _, hba => by simp [lexLe] at hba
  | _ :: _, [], hab, _ => by simp [lexLe] at hab
  | x :: xs, y :: ys, hab, hba => by
    by_cases hxy : x = y
    · subst hxy
      simp only [lexLe] at hab hba
      rw [if_pos trivial] at hab hba
      rw [lexLe_antisymm xs ys hab hba]
    · simp only [lexLe] at hab hba
      rw [if_neg hxy] at hab
      rw [if_neg (Ne.symm hxy)] at hba
      exact absurd (of_decide_eq_true hba) (lt_asymm (of_decide_eq_true hab))

lemma string_toList_inj {a b : String} (h : a.toList = b.toList) : a = b := by
  cases a
  cases b
  simp only [String.toList] at h
  rw [h]

lemma upsert_length (hist : List HEntry) (day : String) (p : Option ℚ) :
    (upsertHistory hist day p).length ≤ hist.length + 1 := by
  induction hist with
  | nil => simp [upsertHistory]
  | cons e rest ih =>
    by_cases he : e.date = day
    · simp only [upsertHistory, if_pos he, List.length_cons]
      omega
    · simp only [upsertHistory, if_neg he, List.length_cons]
      omega

lemma mem_upsert {hist : List HEntry} {day : String} {p : Option ℚ} {e : HEntry}
    (h : e ∈ upsertHistory hist day p) : e ∈ hist ∨ e = ⟨day, p⟩ := by
  induction hist with
  | nil =>
    simp only [upsertHistory, List.mem_singleton] at h
    exact Or.inr h
  | cons x rest ih =>
    by_cases hx : x.date = day
    · simp only [upsertHistory, if_pos hx] at h
      rcases List.mem_cons.mp h with rfl | h2
      · exact Or.inr rfl
      · exact Or.inl (List.mem_cons_of_mem _ h2)
    · simp only [upsertHistory, if_neg hx] at h
      rcases List.mem_cons.mp h with rfl | h2
      · exact Or.inl (List.mem_cons_self _ _)
      · rcases ih h2 with h3 | h3
        · exact Or.inl (List.mem_cons_of_mem _ h3)
        · exact Or.inr h3

lemma upsert_map_date (hist : List HEntry) (day : String) (p : Option ℚ) :
    (upsertHistory hist day p).map HEntry.date =
      if day ∈ hist.map HEntry.date then hist.map HEntry.date
      else hist.map HEntry.date ++ [day] := by
  induction hist with
  | nil => simp [upsertHistory]
  | cons e rest ih =>
    by_cases he : e.date = day
    · simp [upsertHistory, he]
    · have hne : ¬ (day = e.date) := fun hh => he hh.symm
      by_cases hm : day ∈ rest.map HEntry.date <;>
        simp [upsertHistory, he, ih, hm, hne]

lemma filter_day_nil (l : List HEntry) (day : String)
    (h : ∀ x ∈ l, x.date ≠ day) :
    l.filter (fun h => decide (h.date = day)) = [] := by
  induction l with
  | nil => rfl
  | cons x rest ih =>
    have hx : decide (x.date = day) = false := decide_eq_false (h x (List.mem_cons_self x rest))
    simp [List.filter_cons, hx, ih (fun y hy => h y (List.mem_cons_of_mem _ hy))]

lemma upsert_filter_day (hist : List HEntry) (day : String) (p : Option ℚ)
    (hnd : (hist.map HEntry.date).Nodup) :
    (upsertHistory hist day p).filter (fun h => decide (h.date = day)) = [⟨day, p⟩] := by
  induction hist with
  | nil => simp [upsertHistory]
  | cons e rest ih =>
    simp only [List.map_cons, List.nodup_cons] at hnd
    by_cases he : e.date = day
    · have hrest : ∀ x ∈ rest, x.date ≠ day := by
        intro x hx hxd
        refine hnd.1 ?_
        have hx2 : x.date ∈ rest.map HEntry.date := List.mem_map_of_mem HEntry.date hx
        rwa [hxd, ← he] at hx2
      simp only [upsertHistory, if_pos he]
      simp [List.filter_cons, filter_day_nil rest day hrest]
    · have hdec : decide (e.date = day) = false := decide_eq_false he
      simp only [upsertHistory, if_neg he]
      simp [List.filter_cons, hdec, ih hnd.2]

lemma upsert_not_mem (hist : List HEntry) (day : String) (p : Option ℚ)
    (h : ∀ e ∈ hist, e.date ≠ day) :
    upsertHistory hist day p = hist ++ [⟨day, p⟩] := by
  induction hist with
  | nil => rfl
  | cons e rest ih =>
    simp only [upsertHistory, if_neg (h e (List.mem_cons_self e rest)), List.cons_append,
      List.cons.injEq, true_and]
    exact ih (fun x hx => h x (List.mem_cons_of_mem e hx))

lemma upsert_nodup (hist : List HEntry) (day : String) (p : Option ℚ)
    (hnd : (hist.map HEntry.date).Nodup) :
    ((upsertHistory hist day p).map HEntry.date).Nodup := by
  rw [upsert_map_date]
  by_cases hm : day ∈ hist.map HEntry.date
  · simpa [hm] using hnd
  · rw [if_neg hm]
    exact hnd.append (List.nodup_singleton day)
      (fun a ha hb => hm (by rwa [List.mem_singleton.mp hb] at ha))

lemma nodup_dates_of_inv {l : List HEntry} (h : HistoryInv l) :
    (l.map HEntry.date).Nodup :=
  List.pairwise_map.mpr (h.imp fun hab => hab.2)

lemma pairwise_dateBefore_of_sorted {l : List HEntry}
    (hs : List.Sorted dateLe l) (hnd : (l.map HEntry.date).Nodup) :
    HistoryInv l := by
  have hne : List.Pairwise (fun a b : HEntry => a.date ≠ b.date) l :=
    List.pairwise_map.mp hnd
  exact (hs.and hne).imp (fun h => h)

lemma takeLast_day_facts (s : List HEntry) (day : String) (p : Option ℚ)
    (hsort : List.Sorted dateLe s)
    (hfs : s.filter (fun h => decide (h.date = day)) = [⟨day, p⟩])
    (hnds : (s.map HEntry.date).Nodup)
    (hles : ∀ e ∈ s, lexLe e.date.toList day.toList = true)
    (hlen : s.length ≤ 366) :
    ((takeLast 365 s).filter (fun h => decide (h.date = day)) = [⟨day, p⟩]) ∧
    ((takeLast 365 s).map HEntry.date).Nodup ∧
    (∀ e ∈ takeLast 365 s, lexLe e.date.toList day.toList = true) ∧
    (takeLast 365 s).length ≤ 365 := by
  rcases Nat.lt_or_ge s.length 366 with hcase | hcase
  · have h0 : s.length - 365 = 0 := by omega
    have heq : takeLast 365 s = s := by rw [takeLast, h0, List.drop_zero]
    rw [heq]
    exact ⟨hfs, hnds, hles, by omega⟩
  · have h366 : s.length = 366 := le_antisymm hlen hcase
    cases s with
    | nil => simp at h366
    | cons hd tl =>
      have htl : tl.length = 365 := by simpa using h366
      have heq : takeLast 365 (hd :: tl) = tl := by
        rw [takeLast]
        simp [htl]
      have hhd : ¬ (hd.date = day) := by
        intro hdd
        cases tl with
        | nil => simp at htl
        | cons e tl2 =>
          have hrel : dateLe hd e :=
            List.rel_of_sorted_cons hsort e (List.mem_cons_self e tl2)
          have h1 : lexLe day.toList e.date.toList = true := by
            have : lexLe hd.date.toList e.date.toList = true := hrel
            rwa [hdd] at this
          have h2 : lexLe e.date.toList day.toList = true :=
            hles e (List.mem_cons_of_mem hd (List.mem_cons_self e tl2))
          have heq2 : e.date = day := string_toList_inj (lexLe_antisymm _ _ h2 h1)
          have hd1 : decide (hd.date = day) = true := decide_eq_true hdd
          have he1 : decide (e.date = day) = true := decide_eq_true heq2
          have hlen2 : 2 ≤ ((hd :: e :: tl2).filter
              (fun h => decide (h.date = day))).length := by
            simp [List.filter_cons, hd1, he1]
          rw [hfs] at hlen2
          simp at hlen2
      have hfs2 : tl.filter (fun h => decide (h.date = day)) = [⟨day, p⟩] := by
        have hdec : decide (hd.date = day) = false := decide_eq_false hhd
        simpa [List.filter_cons, hdec] using hfs
      rw [heq]
      refine ⟨hfs2, ?_, fun e he => hles e (List.mem_cons_of_mem hd he), by omega⟩
      have := hnds
      simp only [List.map_cons, List.nodup_cons] at this
      exact this.2

lemma historyUpdate_day_facts (hist : List HEntry) (day : String) (p : Option ℚ)
    (hnd : (hist.map HEntry.date).Nodup)
    (hle : ∀ e ∈ hist, lexLe e.date.toList day.toList = true)
    (hlen : hist.length ≤ 365) :
    ((historyUpdate hist day p).filter (fun h => decide (h.date = day)) = [⟨day, p⟩]) ∧
    ((historyUpdate hist day p).map HEntry.date).Nodup ∧
    (∀ e ∈ historyUpdate hist day p, lexLe e.date.toList day.toList = true) ∧
    (historyUpdate hist day p).length ≤ 365 := by
  haveI : IsTotal HEntry dateLe := ⟨fun a b => lexLe_total _ _⟩
  haveI : IsTrans HEntry dateLe := ⟨fun _ _ _ hab hbc => lexLe_trans _ _ _ hab hbc⟩
  have hfu : (upsertHistory hist day p).filter (fun h => decide (h.date = day)) =
      [⟨day, p⟩] := upsert_filter_day hist day p hnd
  have hndu := upsert_nodup hist day p hnd
  have hleu : ∀ e ∈ upsertHistory hist day p, lexLe e.date.toList day.toList = true := by
    intro e he
    rcases mem_upsert he with h | rfl
    · exact hle e h
    · exact lexLe_refl _
  have hlenu : (upsertHistory hist day p).length ≤ 366 :=
    le_trans (upsert_length hist day p) (by omega)
  have hperm : (sortHistory (upsertHistory hist day p)).Perm (upsertHistory hist day p) :=
    List.perm_insertionSort dateLe (upsertHistory hist day p)
  have hfs : (sortHistory (upsertHistory hist day p)).filter
      (fun h => decide (h.date = day)) = [⟨day, p⟩] :=
    List.perm_singleton.mp (hfu ▸ hperm.filter (fun h => decide (h.date = day)))
  have hnds : ((sortHistory (upsertHistory hist day p)).map HEntry.date).Nodup :=
    ((hperm.map HEntry.date).nodup_iff).mpr hndu
  have hles : ∀ e ∈ sortHistory (upsertHistory hist day p),
      lexLe e.date.toList day.toList = true :=
    fun e he => hleu e (hperm.mem_iff.mp he)
  have hlens : (sortHistory (upsertHistory hist day p)).length ≤ 366 := by
    rw [hperm.length_eq]
    exact hlenu
  have hsort : List.Sorted dateLe (sortHistory (upsertHistory hist day p)) :=
    List.sorted_insertionSort dateLe (upsertHistory hist day p)
  exact takeLast_day_facts _ day p hsort hfs hnds hles hlens

/-- C8: history maintenance.  (i) The update preserves the invariant of
strictly increasing dates (sorted ascending, at most one entry per
calendar date) and caps the length at 365.  (ii) Any two same-day runs
leave exactly one entry for the day, holding the second run's value,
whenever the incoming dates are unique, none is later than the day, and
the bound holds.  (iii) On a full 365-entry history and a strictly later
day, the update appends the new entry and evicts exactly the oldest one,
preserving sort order. -/
theorem history_update_invariants (hist : List HEntry) (day : String)
    (p p1 p2 : Option ℚ) :
    (HistoryInv hist →
      HistoryInv (historyUpdate hist day p) ∧ (historyUpdate hist day p).length ≤ 365) ∧
    ((hist.map HEntry.date).Nodup →
      (∀ e ∈ hist, lexLe e.date.toList day.toList = true) →
      hist.length ≤ 365 →
      (historyUpdate (historyUpdate hist day p1) day p2).filter
        (fun h => decide (h.date = day)) = [⟨day, p2⟩]) ∧
    (HistoryInv hist → hist.length = 365 →
      (∀ e ∈ hist, lexLe e.date.toList day.toList = true ∧ e.date ≠ day) →
      historyUpdate hist day p = hist.drop 1 ++ [⟨day, p⟩]) := by
  haveI : IsTotal HEntry dateLe := ⟨fun a b => lexLe_total _ _⟩
  haveI : IsTrans HEntry dateLe := ⟨fun _ _ _ hab hbc => lexLe_trans _ _ _ hab hbc⟩
  refine ⟨?_, ?_, ?_⟩
  · intro hInv
    have hnd := nodup_dates_of_inv hInv
    have hndu := upsert_nodup hist day p hnd
    have hperm : (sortHistory (upsertHistory hist day p)).Perm (upsertHistory hist day p) :=
      List.perm_insertionSort dateLe (upsertHistory hist day p)
    have hnds : ((sortHistory (upsertHistory hist day p)).map HEntry.date).Nodup :=
      ((hperm.map HEntry.date).nodup_iff).mpr hndu
    have hsort : List.Sorted dateLe (sortHistory (upsertHistory hist day p)) :=
      List.sorted_insertionSort dateLe (upsertHistory hist day p)
    have hpair := pairwise_dateBefore_of_sorted hsort hnds
    constructor
    · exact List.Pairwise.sublist (List.drop_sublist _ _) hpair
    · rw [historyUpdate, takeLast, List.length_drop]
      omega
  · intro hnd hle hlen
    obtain ⟨_, hnd1, hle1, hlen1⟩ := historyUpdate_day_facts hist day p1 hnd hle hlen
    exact (historyUpdate_day_facts (historyUpdate hist day p1) day p2 hnd1 hle1 hlen1).1
  · intro hInv hlen hlt
    have hne : ∀ e ∈ hist, e.date ≠ day := fun e he => (hlt e he).2
    rw [historyUpdate, upsert_not_mem hist day p hne]
    have hsorted : List.Sorted dateLe (hist ++ [⟨day, p⟩]) := by
      refine List.pairwise_append.mpr ⟨hInv.imp (fun h => h.1), List.pairwise_singleton _ _, ?_⟩
      intro a ha b hb
      rw [List.mem_singleton.mp hb]
      exact (hlt a ha).1
    rw [sortHistory, hsorted.insertionSort_eq]
    rw [takeLast]
    have hlen2 : (hist ++ [(⟨day, p⟩ : HEntry)]).length - 365 = 1 := by
      simp [hlen]
    rw [hlen2, List.drop_append_of_le_length (by omega)]

/-- Witness: updating a one-entry history twice on the same new day leaves
exactly one entry for the day with the second value, and the invariant
holds after an update. -/
theorem history_update_invariants_witness :
    (historyUpdate (historyUpdate [⟨"2026-10-11", some 2100⟩] "2026-10-12" (some 1950))
        "2026-10-12" (some 1899)).filter
      (fun h => decide (h.date = "2026-10-12")) = [⟨"2026-10-12", some 1899⟩] ∧
    HistoryInv (historyUpdate [⟨"2026-10-11", some 2100⟩] "2026-10-12" (some 1899)) ∧
    (historyUpdate [⟨"2026-10-11", some 2100⟩] "2026-10-12" (some 1899)).length ≤ 365 := by
  have h := history_update_invariants [⟨"2026-10-11", some 2100⟩] "2026-10-12"
    (some 1899) (some 1950) (some 1899)
  refine ⟨h.2.1 (by decide) (by decide) (by decide), ?_, ?_⟩
  · exact (h.1 (by decide)).1
  · exact (h.1 (by decide)).2

end GPUTracker
